import Mathlib

set_option autoImplicit false
set_option maxRecDepth 100000

/-! A shallow embedding of the generational-references arena of src/lib.rs.
    Rust u64 generation counters are modelled as Nat (u64 arithmetic agrees
    with Nat on every value below 2^64, and a checked build aborts on
    overflow); the Box allocations made by alloc are modelled by a
    fresh-address heap List (Option α), where none marks a box freed by
    Gr::drop. -/

/-- Size of one block of generation counters, 1 shifted left by 9 in the
source. -/
def MAX_ALLOCS : Nat := 512

/-- State of GrArenaInternal (the UnsafeCell wrapper of GrArena is erased),
together with the ambient heap of boxed values created by alloc: heap a =
none means the box at address a has been freed. -/
structure GrArena (α : Type) where
  gens : List (List Nat)
  unused : List Nat
  heap : List (Option α)
deriving DecidableEq, Repr

/-- Number of generation-counter slots currently in the table. -/
def numSlots (gens : List (List Nat)) : Nat := gens.length * MAX_ALLOCS

/-- Read the generation counter of slot i: the source addresses the cell as
block i / MAX_ALLOCS, offset i % MAX_ALLOCS (Gr::gen). -/
def genRead (gens : List (List Nat)) (i : Nat) : Option Nat :=
  (gens[i / MAX_ALLOCS]?).bind fun blk => blk[i % MAX_ALLOCS]?

/-- Total read of slot i; on in-range slots it agrees with genRead. -/
def genAt (gens : List (List Nat)) (i : Nat) : Nat := (genRead gens i).getD 0

/-- Increment the generation counter of slot i, as in Gr::drop. -/
def bump (gens : List (List Nat)) (i : Nat) : List (List Nat) :=
  match gens[i / MAX_ALLOCS]? with
  | none => gens
  | some blk =>
    match blk[i % MAX_ALLOCS]? with
    | none => gens
    | some v => gens.set (i / MAX_ALLOCS) (blk.set (i % MAX_ALLOCS) (v + 1))

/-- Strong handle (Gr): heap address of the boxed value and index of its
generation counter. The arena back-pointer and the phantom lifetime of the
source are erased: there is a single arena in scope. -/
structure Gr where
  ptr : Nat
  gen_idx : Nat
deriving DecidableEq, Repr

/-- The body of the None arm of the alloc loop: append one fresh block of
MAX_ALLOCS counters, all 1, and push the block's global indices
i + (gens.len() - 1) * MAX_ALLOCS for i = 0 .. MAX_ALLOCS-1 onto the free
list. The stack top is the list head, so the pushed run appears reversed. -/
def grow {α : Type} (s : GrArena α) : GrArena α :=
  { s with
    gens := s.gens ++ [List.replicate MAX_ALLOCS 1],
    unused := ((List.range MAX_ALLOCS).map fun i => i + s.gens.length * MAX_ALLOCS).reverse
                ++ s.unused }

/-- The state on which the successful pop of the alloc loop happens: the
source loops, growing once when the free list is empty, after which the next
pop is guaranteed to succeed, so the loop runs at most two iterations. -/
def popFree {α : Type} (s : GrArena α) : GrArena α :=
  if s.unused = [] then grow s else s

/-- GrArena::alloc: pop a free slot (growing first when none is left), box
the value at a fresh heap address, and return the strong handle. -/
def GrArena.alloc {α : Type} (s : GrArena α) (v : α) : GrArena α × Gr :=
  match h : (popFree s).unused with
  | i :: rest =>
      ({ gens := (popFree s).gens, unused := rest, heap := (popFree s).heap ++ [some v] },
       { ptr := (popFree s).heap.length, gen_idx := i })
  | [] => absurd h (by
      simp only [popFree]
      split
      next hc =>
        intro hg
        have hl := congrArg List.length hg
        simp only [grow, List.length_append, List.length_reverse, List.length_map,
          List.length_range, List.length_nil, MAX_ALLOCS] at hl
        omega
      next hc => exact hc)

/-- Weak handle: heap address of the value, index of the generation cell (the
stable raw counter pointer of the source is exactly the block/offset pair the
index encodes), and the generation snapshot taken at construction. -/
structure Weak where
  ptr : Nat
  gen : Nat
  alloc_gen : Nat
deriving DecidableEq, Repr

/-- Gr::weak: read the current generation counter and package it with the
locations of the value and of the counter. It only reads; the embedding
records that by giving it a pure type that returns no state. -/
def Gr.weak {α : Type} (g : Gr) (s : GrArena α) : Weak :=
  { ptr := g.ptr, gen := g.gen_idx, alloc_gen := genAt s.gens g.gen_idx }

/-- Drop for Gr: free the box, increment the slot's generation counter, and
push the slot index back onto the free list. -/
def Gr.drop {α : Type} (g : Gr) (s : GrArena α) : GrArena α :=
  { gens := bump s.gens g.gen_idx,
    unused := g.gen_idx :: s.unused,
    heap := s.heap.set g.ptr none }

/-- Weak::get: compare the live counter with the snapshot; on mismatch return
none, otherwise dereference the value pointer. In the source the dereference
is an unchecked read; the model reads the heap cell, and the reachability
theorems show that cell is never a freed box when the comparison succeeds. -/
def Weak.get {α : Type} (w : Weak) (s : GrArena α) : Option α :=
  match genRead s.gens w.gen with
  | none => none
  | some g => if g ≠ w.alloc_gen then none else (s.heap[w.ptr]?).getD none

/-- Modelled from the spec: the source has no Clone impl for Weak (all its
fields are Copy); spec sections 4.4 and 6 describe WeakHandle.clone() as
duplicating the snapshot and the two stable references, which is field-wise
duplication. -/
def Weak.clone (w : Weak) : Weak :=
  { ptr := w.ptr, gen := w.gen, alloc_gen := w.alloc_gen }

/-- One client operation on the arena: allocate a value, or drop (destroy)
the strong handle of the k-th allocation. -/
inductive Op (α : Type) where
  | alloc (v : α)
  | drop (k : Nat)
deriving DecidableEq, Repr

/-- A world: the arena state, the strong handle of every allocation made so
far (none once dropped: Rust move semantics rule out a second drop), and the
ghost list of the allocated values. -/
structure World (α : Type) where
  st : GrArena α
  grs : List (Option Gr)
  vals : List α
deriving DecidableEq, Repr

/-- The strong handle of allocation k, when it is still alive. -/
def World.handle {α : Type} (w : World α) (k : Nat) : Option Gr :=
  (w.grs[k]?).getD none

/-- The slot occupied by allocation k, when it is still alive. -/
def World.slotOf {α : Type} (w : World α) (k : Nat) : Option Nat :=
  (w.handle k).map Gr.gen_idx

/-- Execute one operation. Dropping an allocation that is already dead or
never existed has no Rust counterpart (ownership forbids it) and is a no-op
here. -/
def step {α : Type} (w : World α) : Op α → World α
  | Op.alloc v =>
      let p := w.st.alloc v
      { st := p.1, grs := w.grs ++ [some p.2], vals := w.vals ++ [v] }
  | Op.drop k =>
      match w.handle k with
      | some g => { st := g.drop w.st, grs := w.grs.set k none, vals := w.vals }
      | none => w

/-- The empty world: GrArena::new() with no allocations yet. -/
def World.init (α : Type) : World α :=
  { st := { gens := [], unused := [], heap := [] }, grs := [], vals := [] }

/-- Run a sequence of operations from the empty world; run ops ranges over
exactly the reachable worlds. -/
def run {α : Type} (ops : List (Op α)) : World α :=
  ops.foldl step (World.init α)

/-- Well-formedness of the slot table: every block present has exactly
MAX_ALLOCS counters. -/
abbrev Blocks (gens : List (List Nat)) : Prop :=
  ∀ blk ∈ gens, blk.length = MAX_ALLOCS

lemma max_pos : 0 < MAX_ALLOCS := by decide

lemma div_lt_of_lt_numSlots {i : Nat} {gens : List (List Nat)} (h : i < numSlots gens) :
    i / MAX_ALLOCS < gens.length :=
  (Nat.div_lt_iff_lt_mul max_pos).mpr h

lemma genRead_eq_none {gens : List (List Nat)} {i : Nat} (h : numSlots gens ≤ i) :
    genRead gens i = none := by
  have hj : gens.length ≤ i / MAX_ALLOCS := (Nat.le_div_iff_mul_le max_pos).mpr h
  simp [genRead, List.getElem?_eq_none hj]

lemma genRead_eq_some {gens : List (List Nat)} {i : Nat} (hb : Blocks gens)
    (h : i < numSlots gens) : ∃ v, genRead gens i = some v := by
  have hj : i / MAX_ALLOCS < gens.length := div_lt_of_lt_numSlots h
  cases hblk : gens[i / MAX_ALLOCS]? with
  | none =>
    rw [List.getElem?_eq_none_iff] at hblk
    omega
  | some blk =>
    have hlen : blk.length = MAX_ALLOCS := hb _ (List.getElem?_mem hblk)
    have hm : i % MAX_ALLOCS < blk.length := by
      rw [hlen]; exact Nat.mod_lt _ max_pos
    cases hv : blk[i % MAX_ALLOCS]? with
    | none =>
      rw [List.getElem?_eq_none_iff] at hv
      omega
    | some v => exact ⟨v, by simp [genRead, hblk, hv]⟩

lemma genRead_append {gens : List (List Nat)} {i : Nat} (h : i < numSlots gens)
    (b : List Nat) : genRead (gens ++ [b]) i = genRead gens i := by
  simp [genRead, List.getElem?_append_left (div_lt_of_lt_numSlots h)]

lemma genAt_append {gens : List (List Nat)} {i : Nat} (h : i < numSlots gens)
    (b : List Nat) : genAt (gens ++ [b]) i = genAt gens i := by
  simp [genAt, genRead_append h]

lemma numSlots_append_one (gens : List (List Nat)) (b : List Nat) :
    numSlots (gens ++ [b]) = numSlots gens + MAX_ALLOCS := by
  simp [numSlots, Nat.succ_mul]

lemma genRead_append_new {gens : List (List Nat)} {i : Nat}
    (h1 : numSlots gens ≤ i) (h2 : i < numSlots (gens ++ [List.replicate MAX_ALLOCS 1])) :
    genRead (gens ++ [List.replicate MAX_ALLOCS 1]) i = some 1 := by
  have hge : gens.length ≤ i / MAX_ALLOCS := (Nat.le_div_iff_mul_le max_pos).mpr h1
  have hlt : i / MAX_ALLOCS < gens.length + 1 := by
    have := div_lt_of_lt_numSlots h2
    simpa using this
  have hj : i / MAX_ALLOCS = gens.length := by omega
  rw [genRead, List.getElem?_append_right hge, hj]
  simp [Nat.mod_lt _ max_pos]

lemma blocks_append {gens : List (List Nat)} (hb : Blocks gens) :
    Blocks (gens ++ [List.replicate MAX_ALLOCS 1]) := by
  intro blk hm
  rcases List.mem_append.mp hm with hm | hm
  · exact hb _ hm
  · rw [List.mem_singleton.mp hm]
    simp

lemma bump_length (gens : List (List Nat)) (i : Nat) :
    (bump gens i).length = gens.length := by
  unfold bump
  split
  · rfl
  · split
    · rfl
    · simp

lemma numSlots_bump (gens : List (List Nat)) (i : Nat) :
    numSlots (bump gens i) = numSlots gens := by
  simp [numSlots, bump_length]

lemma blocks_bump {gens : List (List Nat)} (hb : Blocks gens) (i : Nat) :
    Blocks (bump gens i) := by
  unfold bump
  split
  · exact hb
  next blk hblk =>
    split
    · exact hb
    next v hv =>
      intro b hm
      rcases List.mem_or_eq_of_mem_set hm with hm2 | hm2
      · exact hb _ hm2
      · rw [hm2]
        simpa using hb _ (List.getElem?_mem hblk)

lemma genRead_bump_self {gens : List (List Nat)} {i : Nat} (hb : Blocks gens)
    (hi : i < numSlots gens) :
    genRead (bump gens i) i = some (genAt gens i + 1) := by
  obtain ⟨v, hv⟩ := genRead_eq_some hb hi
  unfold genRead at hv
  cases hblk : gens[i / MAX_ALLOCS]? with
  | none => rw [hblk] at hv; exact absurd hv (by simp)
  | some blk =>
    rw [hblk] at hv
    simp only [Option.some_bind] at hv
    have hjlt : i / MAX_ALLOCS < gens.length := (List.getElem?_eq_some_iff.mp hblk).1
    have hmlt : i % MAX_ALLOCS < blk.length := (List.getElem?_eq_some_iff.mp hv).1
    unfold bump
    simp only [hblk, hv]
    simp only [genRead, List.getElem?_set_self hjlt, Option.some_bind]
    rw [List.getElem?_set_self hmlt]
    have hgv : genAt gens i = v := by simp [genAt, genRead, hblk, hv]
    rw [hgv]

lemma genRead_bump_ne {gens : List (List Nat)} {i j : Nat} (hj : j ≠ i) :
    genRead (bump gens i) j = genRead gens j := by
  unfold bump
  split
  · rfl
  next blk hblk =>
    split
    · rfl
    next v hv =>
      unfold genRead
      by_cases hd : j / MAX_ALLOCS = i / MAX_ALLOCS
      · have hm : j % MAX_ALLOCS ≠ i % MAX_ALLOCS := by
          intro hme
          apply hj
          have h1 := Nat.div_add_mod j MAX_ALLOCS
          have h2 := Nat.div_add_mod i MAX_ALLOCS
          rw [hd, hme] at h1
          omega
        have hjlt : i / MAX_ALLOCS < gens.length := (List.getElem?_eq_some_iff.mp hblk).1
        rw [hd, List.getElem?_set_self hjlt, hblk]
        simp only [Option.some_bind]
        rw [List.getElem?_set_ne (fun hc => hm hc.symm)]
      · rw [List.getElem?_set_ne (fun hc => hd hc.symm)]

lemma genAt_le_bump (gens : List (List Nat)) (i j : Nat) :
    genAt gens j ≤ genAt (bump gens i) j := by
  by_cases hj : j = i
  · subst hj
    unfold genAt bump
    split
    · exact Nat.le_refl _
    next blk hblk =>
      split
      · exact Nat.le_refl _
      next v hv =>
        have hjlt : j / MAX_ALLOCS < gens.length := (List.getElem?_eq_some_iff.mp hblk).1
        have hmlt : j % MAX_ALLOCS < blk.length := (List.getElem?_eq_some_iff.mp hv).1
        simp only [genRead, hblk, Option.some_bind, List.getElem?_set_self hjlt]
        rw [hv, List.getElem?_set_self hmlt]
        simp
  · simp [genAt, genRead_bump_ne hj]

lemma grow_gens {α : Type} (s : GrArena α) :
    (grow s).gens = s.gens ++ [List.replicate MAX_ALLOCS 1] := rfl

lemma grow_heap {α : Type} (s : GrArena α) : (grow s).heap = s.heap := rfl

lemma grow_unused_mem {α : Type} (s : GrArena α) (x : Nat) :
    x ∈ (grow s).unused ↔
      (numSlots s.gens ≤ x ∧ x < numSlots s.gens + MAX_ALLOCS) ∨ x ∈ s.unused := by
  simp only [grow, List.mem_append, List.mem_reverse, List.mem_map, List.mem_range, numSlots]
  constructor
  · rintro (⟨j, hj, rfl⟩ | h)
    · left
      omega
    · right
      exact h
  · rintro (⟨h1, h2⟩ | h)
    · left
      exact ⟨x - s.gens.length * MAX_ALLOCS, by omega, by omega⟩
    · right
      exact h

lemma grow_nodup {α : Type} (s : GrArena α) (hn : s.unused.Nodup)
    (hlt : ∀ i ∈ s.unused, i < numSlots s.gens) : (grow s).unused.Nodup := by
  simp only [grow]
  apply List.Nodup.append
  · apply List.nodup_reverse.mpr
    apply List.Nodup.map
    · intro a b hab
      dsimp only at hab
      omega
    · exact List.nodup_range _
  · exact hn
  · intro a ha hb
    simp only [List.mem_reverse, List.mem_map, List.mem_range] at ha
    obtain ⟨j, hj, rfl⟩ := ha
    have hx := hlt _ hb
    simp only [numSlots] at hx
    omega

lemma popFree_unused_ne_nil {α : Type} (s : GrArena α) : (popFree s).unused ≠ [] := by
  simp only [popFree]
  split
  next hc =>
    intro hg
    have hl := congrArg List.length hg
    simp only [grow, List.length_append, List.length_reverse, List.length_map,
      List.length_range, List.length_nil, MAX_ALLOCS] at hl
    omega
  next hc => exact hc

lemma popFree_cases {α : Type} (s : GrArena α) :
    (s.unused = [] ∧ popFree s = grow s) ∨ (s.unused ≠ [] ∧ popFree s = s) := by
  by_cases h : s.unused = [] <;> simp [popFree, h]

lemma popFree_heap {α : Type} (s : GrArena α) : (popFree s).heap = s.heap := by
  simp only [popFree]
  split <;> rfl

lemma popFree_numSlots_le {α : Type} (s : GrArena α) :
    numSlots s.gens ≤ numSlots (popFree s).gens := by
  rcases popFree_cases s with ⟨h1, h2⟩ | ⟨h1, h2⟩
  · rw [h2, grow_gens, numSlots_append_one]
    omega
  · rw [h2]

lemma genRead_popFree {α : Type} {s : GrArena α} {i : Nat} (h : i < numSlots s.gens) :
    genRead (popFree s).gens i = genRead s.gens i := by
  rcases popFree_cases s with ⟨h1, h2⟩ | ⟨h1, h2⟩
  · rw [h2, grow_gens, genRead_append h]
  · rw [h2]

lemma blocks_popFree {α : Type} {s : GrArena α} (hb : Blocks s.gens) :
    Blocks (popFree s).gens := by
  rcases popFree_cases s with ⟨h1, h2⟩ | ⟨h1, h2⟩ <;> rw [h2]
  · rw [grow_gens]
    exact blocks_append hb
  · exact hb

lemma popFree_unused_mem {α : Type} (s : GrArena α) (x : Nat) (hx : x ∈ (popFree s).unused) :
    x ∈ s.unused ∨ numSlots s.gens ≤ x := by
  rcases popFree_cases s with ⟨h1, h2⟩ | ⟨h1, h2⟩ <;> rw [h2] at hx
  · rcases (grow_unused_mem s x).mp hx with ⟨ha, _⟩ | ha
    · right; exact ha
    · left; exact ha
  · left; exact hx

lemma popFree_unused_lt {α : Type} (s : GrArena α)
    (hlt : ∀ i ∈ s.unused, i < numSlots s.gens) :
    ∀ i ∈ (popFree s).unused, i < numSlots (popFree s).gens := by
  intro i hi
  rcases popFree_cases s with ⟨h1, h2⟩ | ⟨h1, h2⟩ <;> rw [h2] at hi ⊢
  · rw [grow_gens, numSlots_append_one]
    rcases (grow_unused_mem s i).mp hi with ⟨ha, hb2⟩ | ha
    · exact hb2
    · have := hlt _ ha
      omega
  · exact hlt _ hi

lemma popFree_nodup {α : Type} (s : GrArena α) (hn : s.unused.Nodup)
    (hlt : ∀ i ∈ s.unused, i < numSlots s.gens) : (popFree s).unused.Nodup := by
  rcases popFree_cases s with ⟨h1, h2⟩ | ⟨h1, h2⟩ <;> rw [h2]
  · exact grow_nodup s hn hlt
  · exact hn

lemma alloc_spec {α : Type} (s : GrArena α) (v : α) :
    ∃ i rest, (popFree s).unused = i :: rest ∧
      s.alloc v = ({ gens := (popFree s).gens, unused := rest,
                     heap := (popFree s).heap ++ [some v] },
                   { ptr := (popFree s).heap.length, gen_idx := i }) := by
  unfold GrArena.alloc
  split
  next i rest heq => exact ⟨i, rest, heq, rfl⟩
  next heq => exact absurd heq (popFree_unused_ne_nil s)

lemma handle_lt {α : Type} {w : World α} {k : Nat} {g : Gr} (h : w.handle k = some g) :
    k < w.grs.length := by
  by_contra hk
  simp only [World.handle] at h
  rw [List.getElem?_eq_none (by omega)] at h
  simp at h

lemma optGetD_concat {β : Type} {l : List (Option β)} {x : Option β} {k : Nat} {b : β}
    (h : ((l ++ [x])[k]?).getD none = some b) :
    (k < l.length ∧ (l[k]?).getD none = some b) ∨ (k = l.length ∧ x = some b) := by
  rcases Nat.lt_trichotomy k l.length with hk | hk | hk
  · left
    rw [List.getElem?_append_left hk] at h
    exact ⟨hk, h⟩
  · right
    subst hk
    rw [List.getElem?_concat_length] at h
    exact ⟨rfl, h⟩
  · exfalso
    rw [List.getElem?_eq_none (by simp; omega)] at h
    simp at h

lemma optGetD_concat_left {β : Type} (l : List (Option β)) (x : Option β) {k : Nat}
    (hk : k < l.length) : ((l ++ [x])[k]?).getD none = (l[k]?).getD none := by
  rw [List.getElem?_append_left hk]

lemma optGetD_set_none {β : Type} {l : List (Option β)} {k k2 : Nat} {b : β}
    (hk : k < l.length) (h : ((l.set k none)[k2]?).getD none = some b) :
    k2 ≠ k ∧ (l[k2]?).getD none = some b := by
  by_cases hkk : k2 = k
  · subst hkk
    rw [List.getElem?_set_self hk] at h
    simp at h
  · rw [List.getElem?_set_ne (fun hc => hkk hc.symm)] at h
    exact ⟨hkk, h⟩

/-- The reachability invariant: shape of the slot table, sanity of the free
list, and the relation between live strong handles, the free list, the heap
and the ghost values. -/
structure WF {α : Type} (w : World α) : Prop where
  blocks : Blocks w.st.gens
  unusedLt : ∀ i ∈ w.st.unused, i < numSlots w.st.gens
  nodup : w.st.unused.Nodup
  heapLen : w.st.heap.length = w.grs.length
  valsLen : w.vals.length = w.grs.length
  liveIdx : ∀ k g, w.handle k = some g → g.gen_idx < numSlots w.st.gens
  livePtr : ∀ k g, w.handle k = some g → g.ptr = k
  liveFree : ∀ k g, w.handle k = some g → g.gen_idx ∉ w.st.unused
  liveInj : ∀ k1 k2 g1 g2, w.handle k1 = some g1 → w.handle k2 = some g2 →
    k1 ≠ k2 → g1.gen_idx ≠ g2.gen_idx
  liveVal : ∀ k g, w.handle k = some g →
    ∃ v, w.vals[k]? = some v ∧ w.st.heap[k]? = some (some v)
  freeLive : ∀ i, i < numSlots w.st.gens → i ∉ w.st.unused →
    ∃ k g, w.handle k = some g ∧ g.gen_idx = i
  genOne : ∀ i, i < numSlots w.st.gens → 1 ≤ genAt w.st.gens i

lemma WF_init (α : Type) : WF (World.init α) := by
  constructor <;> simp [World.init, World.handle, numSlots, Blocks]

lemma WF_step {α : Type} {w : World α} (hw : WF w) (op : Op α) : WF (step w op) := by
  cases op with
  | alloc v =>
    obtain ⟨i, rest, hpop, halloc⟩ := alloc_spec w.st v
    have hb1 : Blocks (popFree w.st).gens := blocks_popFree hw.blocks
    have hu1 : ∀ x ∈ (popFree w.st).unused, x < numSlots (popFree w.st).gens :=
      popFree_unused_lt w.st hw.unusedLt
    have hn1 : (popFree w.st).unused.Nodup := popFree_nodup w.st hw.nodup hw.unusedLt
    have hns1 : numSlots w.st.gens ≤ numSlots (popFree w.st).gens := popFree_numSlots_le w.st
    have hheap1 : (popFree w.st).heap = w.st.heap := popFree_heap w.st
    have hi_mem : i ∈ (popFree w.st).unused := by
      rw [hpop]; exact List.mem_cons_self _ _
    have hrest_sub : ∀ x ∈ rest, x ∈ (popFree w.st).unused := by
      intro x hx; rw [hpop]; exact List.mem_cons_of_mem _ hx
    have hi_not_rest : i ∉ rest := by
      have hn2 := hn1
      rw [hpop] at hn2
      exact (List.nodup_cons.mp hn2).1
    have hrest_nodup : rest.Nodup := by
      have hn2 := hn1
      rw [hpop] at hn2
      exact (List.nodup_cons.mp hn2).2
    have hgen1 : ∀ j, j < numSlots (popFree w.st).gens → 1 ≤ genAt (popFree w.st).gens j := by
      intro j hj
      rcases popFree_cases w.st with ⟨h1, h2⟩ | ⟨h1, h2⟩
      · rw [h2] at hj ⊢
        rw [grow_gens] at hj ⊢
        rcases Nat.lt_or_ge j (numSlots w.st.gens) with hj2 | hj2
        · rw [genAt_append hj2]
          exact hw.genOne j hj2
        · simp only [genAt]
          rw [genRead_append_new hj2 hj]
          simp
      · rw [h2] at hj ⊢
        exact hw.genOne j hj
    have hfree1 : ∀ j, j < numSlots (popFree w.st).gens → j ∉ (popFree w.st).unused →
        ∃ k g, w.handle k = some g ∧ g.gen_idx = j := by
      intro j hj hnot
      rcases popFree_cases w.st with ⟨h1, h2⟩ | ⟨h1, h2⟩
      · rw [h2] at hj hnot
        rcases Nat.lt_or_ge j (numSlots w.st.gens) with hj2 | hj2
        · apply hw.freeLive j hj2
          intro hmem
          exact hnot ((grow_unused_mem w.st j).mpr (Or.inr hmem))
        · exfalso
          apply hnot
          apply (grow_unused_mem w.st j).mpr
          left
          refine ⟨hj2, ?_⟩
          rw [grow_gens, numSlots_append_one] at hj
          exact hj
      · rw [h2] at hj hnot
        exact hw.freeLive j hj hnot
    have hliveFree1 : ∀ k g, w.handle k = some g → g.gen_idx ∉ (popFree w.st).unused := by
      intro k g hk hmem
      rcases popFree_unused_mem w.st _ hmem with h | h
      · exact hw.liveFree k g hk h
      · have := hw.liveIdx k g hk
        omega
    have hstep : step w (Op.alloc v) =
        { st := { gens := (popFree w.st).gens, unused := rest,
                  heap := w.st.heap ++ [some v] },
          grs := w.grs ++ [some { ptr := w.grs.length, gen_idx := i }],
          vals := w.vals ++ [v] } := by
      simp only [step, halloc, hheap1, hw.heapLen]
    rw [hstep]
    have hnd_inv : ∀ k g,
        (World.handle
          { st := { gens := (popFree w.st).gens, unused := rest,
                    heap := w.st.heap ++ [some v] },
            grs := w.grs ++ [some { ptr := w.grs.length, gen_idx := i }],
            vals := w.vals ++ [v] } k) = some g →
        (k < w.grs.length ∧ w.handle k = some g) ∨
        (k = w.grs.length ∧ g = { ptr := w.grs.length, gen_idx := i }) := by
      intro k g h
      rcases optGetD_concat h with ⟨hk, h2⟩ | ⟨hk, h2⟩
      · exact Or.inl ⟨hk, h2⟩
      · refine Or.inr ⟨hk, ?_⟩
        simpa using h2.symm
    constructor
    · exact hb1
    · intro x hx
      exact hu1 x (hrest_sub x hx)
    · exact hrest_nodup
    · simp [hw.heapLen]
    · simp [hw.valsLen]
    · intro k g hk
      rcases hnd_inv k g hk with ⟨hlt, hold⟩ | ⟨hk2, hg⟩
      · have := hw.liveIdx k g hold
        simp only
        omega
      · rw [hg]
        simpa using hu1 i hi_mem
    · intro k g hk
      rcases hnd_inv k g hk with ⟨hlt, hold⟩ | ⟨hk2, hg⟩
      · exact hw.livePtr k g hold
      · rw [hg, hk2]
    · intro k g hk
      rcases hnd_inv k g hk with ⟨hlt, hold⟩ | ⟨hk2, hg⟩
      · intro hmem
        exact hliveFree1 k g hold (hrest_sub _ hmem)
      · rw [hg]
        simpa using hi_not_rest
    · intro k1 k2 g1 g2 hk1 hk2 hne
      rcases hnd_inv k1 g1 hk1 with ⟨hlt1, hold1⟩ | ⟨hkk1, hg1⟩ <;>
        rcases hnd_inv k2 g2 hk2 with ⟨hlt2, hold2⟩ | ⟨hkk2, hg2⟩
      · exact hw.liveInj k1 k2 g1 g2 hold1 hold2 hne
      · rw [hg2]
        intro heq
        simp only at heq
        apply hliveFree1 k1 g1 hold1
        rw [heq]
        exact hi_mem
      · rw [hg1]
        intro heq
        simp only at heq
        apply hliveFree1 k2 g2 hold2
        rw [← heq]
        exact hi_mem
      · exact absurd (hkk1.trans hkk2.symm) hne
    · intro k g hk
      rcases hnd_inv k g hk with ⟨hlt, hold⟩ | ⟨hk2, hg⟩
      · obtain ⟨u, hu, hh⟩ := hw.liveVal k g hold
        refine ⟨u, ?_, ?_⟩
        · rw [List.getElem?_append_left (by rw [hw.valsLen]; exact hlt)]
          exact hu
        · simp only
          rw [List.getElem?_append_left (by rw [hw.heapLen]; exact hlt)]
          exact hh
      · subst hk2
        refine ⟨v, ?_, ?_⟩
        · simp only
          rw [← hw.valsLen, List.getElem?_concat_length]
        · simp only
          rw [← hw.heapLen, List.getElem?_concat_length]
    · intro j hj hnot
      simp only at hj hnot
      by_cases hji : j = i
      · subst hji
        refine ⟨w.grs.length, { ptr := w.grs.length, gen_idx := j }, ?_, rfl⟩
        simp only [World.handle]
        rw [← hw.heapLen]
        rw [hw.heapLen, List.getElem?_concat_length]
        rfl
      · have hjno : j ∉ (popFree w.st).unused := by
          rw [hpop]
          simp [hji, hnot]
        obtain ⟨k, g, hk, hgi⟩ := hfree1 j hj hjno
        refine ⟨k, g, ?_, hgi⟩
        simp only [World.handle]
        rw [optGetD_concat_left _ _ (handle_lt hk)]
        exact hk
    · exact hgen1
  | drop k =>
    cases hk : w.handle k with
    | none =>
      have hstep : step w (Op.drop k) = w := by
        simp [step, hk]
      rw [hstep]
      exact hw
    | some g =>
      have hstep : step w (Op.drop k) =
          { st := { gens := bump w.st.gens g.gen_idx,
                    unused := g.gen_idx :: w.st.unused,
                    heap := w.st.heap.set g.ptr none },
            grs := w.grs.set k none, vals := w.vals } := by
        simp only [step, hk]
        rfl
      have hklen : k < w.grs.length := handle_lt hk
      have hgidx : g.gen_idx < numSlots w.st.gens := hw.liveIdx k g hk
      have hgptr : g.ptr = k := hw.livePtr k g hk
      rw [hstep]
      have hnd : ∀ k2 g2,
          (World.handle
            { st := { gens := bump w.st.gens g.gen_idx,
                      unused := g.gen_idx :: w.st.unused,
                      heap := w.st.heap.set g.ptr none },
              grs := w.grs.set k none, vals := w.vals } k2) = some g2 →
          k2 ≠ k ∧ w.handle k2 = some g2 := by
        intro k2 g2 h2
        exact optGetD_set_none hklen h2
      constructor
      · exact blocks_bump hw.blocks _
      · intro x hx
        simp only [numSlots_bump]
        rcases List.mem_cons.mp hx with hx | hx
        · rw [hx]
          exact hgidx
        · exact hw.unusedLt x hx
      · exact List.nodup_cons.mpr ⟨hw.liveFree k g hk, hw.nodup⟩
      · simp [hw.heapLen]
      · simp [hw.valsLen]
      · intro k2 g2 h2
        obtain ⟨hne, hold⟩ := hnd k2 g2 h2
        simp only [numSlots_bump]
        exact hw.liveIdx k2 g2 hold
      · intro k2 g2 h2
        obtain ⟨hne, hold⟩ := hnd k2 g2 h2
        exact hw.livePtr k2 g2 hold
      · intro k2 g2 h2
        obtain ⟨hne, hold⟩ := hnd k2 g2 h2
        intro hmem
        rcases List.mem_cons.mp hmem with hx | hx
        · exact hw.liveInj k2 k g2 g hold hk hne hx
        · exact hw.liveFree k2 g2 hold hx
      · intro k1 k2 g1 g2 h1 h2 hne
        obtain ⟨hne1, hold1⟩ := hnd k1 g1 h1
        obtain ⟨hne2, hold2⟩ := hnd k2 g2 h2
        exact hw.liveInj k1 k2 g1 g2 hold1 hold2 hne
      · intro k2 g2 h2
        obtain ⟨hne, hold⟩ := hnd k2 g2 h2
        obtain ⟨u, hu, hh⟩ := hw.liveVal k2 g2 hold
        refine ⟨u, hu, ?_⟩
        simp only
        rw [List.getElem?_set_ne]
        · exact hh
        · rw [hgptr]
          exact fun hc => hne hc.symm
      · intro j hj hnot
        simp only [numSlots_bump] at hj
        simp only [List.mem_cons, not_or] at hnot
        obtain ⟨hnotg, hnotun⟩ := hnot
        obtain ⟨k2, g2, hk2, hgi⟩ := hw.freeLive j hj hnotun
        have hne : k2 ≠ k := by
          intro hkk
          rw [hkk, hk] at hk2
          apply hnotg
          rw [← hgi]
          simp only [Option.some_inj] at hk2
          rw [hk2]
        refine ⟨k2, g2, ?_, hgi⟩
        simp only [World.handle]
        rw [List.getElem?_set_ne (fun hc => hne hc.symm)]
        exact hk2
      · intro j hj
        simp only [numSlots_bump] at hj
        exact Nat.le_trans (hw.genOne j hj) (genAt_le_bump _ _ _)

lemma WF_foldl {α : Type} {w : World α} (hw : WF w) (l : List (Op α)) :
    WF (l.foldl step w) := by
  induction l generalizing w with
  | nil => exact hw
  | cons op l ih => exact ih (WF_step hw op)

lemma WF_run {α : Type} (ops : List (Op α)) : WF (run ops) :=
  WF_foldl (WF_init α) ops

lemma genAt_step_le {α : Type} (w : World α) (op : Op α) (j : Nat) :
    genAt w.st.gens j ≤ genAt (step w op).st.gens j := by
  cases op with
  | alloc v =>
    obtain ⟨i, rest, hpop, halloc⟩ := alloc_spec w.st v
    simp only [step, halloc]
    rcases popFree_cases w.st with ⟨h1, h2⟩ | ⟨h1, h2⟩
    · rw [h2, grow_gens]
      rcases Nat.lt_or_ge j (numSlots w.st.gens) with hj | hj
      · rw [genAt_append hj]
      · simp only [genAt]
        rw [genRead_eq_none hj]
        simp
    · rw [h2]
  | drop k =>
    cases hk : w.handle k with
    | none => simp [step, hk]
    | some g =>
      simp only [step, hk, Gr.drop]
      exact genAt_le_bump _ _ _

lemma numSlots_step_le {α : Type} (w : World α) (op : Op α) :
    numSlots w.st.gens ≤ numSlots (step w op).st.gens := by
  cases op with
  | alloc v =>
    obtain ⟨i, rest, hpop, halloc⟩ := alloc_spec w.st v
    simp only [step, halloc]
    exact popFree_numSlots_le w.st
  | drop k =>
    cases hk : w.handle k with
    | none => simp [step, hk]
    | some g =>
      simp only [step, hk, Gr.drop]
      rw [numSlots_bump]

lemma grs_length_step_le {α : Type} (w : World α) (op : Op α) :
    w.grs.length ≤ (step w op).grs.length := by
  cases op with
  | alloc v =>
    obtain ⟨i, rest, hpop, halloc⟩ := alloc_spec w.st v
    simp only [step, halloc]
    simp
  | drop k =>
    cases hk : w.handle k with
    | none => simp [step, hk]
    | some g =>
      simp only [step, hk]
      simp

lemma vals_length_step_le {α : Type} (w : World α) (op : Op α) :
    w.vals.length ≤ (step w op).vals.length := by
  cases op with
  | alloc v =>
    obtain ⟨i, rest, hpop, halloc⟩ := alloc_spec w.st v
    simp only [step, halloc]
    simp
  | drop k =>
    cases hk : w.handle k with
    | none => simp [step, hk]
    | some g =>
      simp only [step, hk]
      simp

lemma vals_step_stable {α : Type} (w : World α) (op : Op α) {k : Nat}
    (hk : k < w.vals.length) : (step w op).vals[k]? = w.vals[k]? := by
  cases op with
  | alloc v =>
    obtain ⟨i, rest, hpop, halloc⟩ := alloc_spec w.st v
    simp only [step, halloc]
    exact List.getElem?_append_left hk
  | drop k2 =>
    cases hk2 : w.handle k2 with
    | none => simp [step, hk2]
    | some g => simp [step, hk2]

lemma genAt_foldl_le {α : Type} (w : World α) (l : List (Op α)) (j : Nat) :
    genAt w.st.gens j ≤ genAt (l.foldl step w).st.gens j := by
  induction l generalizing w with
  | nil => exact Nat.le_refl _
  | cons op l ih => exact Nat.le_trans (genAt_step_le w op j) (ih (step w op))

lemma numSlots_foldl_le {α : Type} (w : World α) (l : List (Op α)) :
    numSlots w.st.gens ≤ numSlots (l.foldl step w).st.gens := by
  induction l generalizing w with
  | nil => exact Nat.le_refl _
  | cons op l ih => exact Nat.le_trans (numSlots_step_le w op) (ih (step w op))

lemma grs_length_foldl_le {α : Type} (w : World α) (l : List (Op α)) :
    w.grs.length ≤ (l.foldl step w).grs.length := by
  induction l generalizing w with
  | nil => exact Nat.le_refl _
  | cons op l ih => exact Nat.le_trans (grs_length_step_le w op) (ih (step w op))

lemma vals_foldl_stable {α : Type} (w : World α) (l : List (Op α)) {k : Nat}
    (hk : k < w.vals.length) : (l.foldl step w).vals[k]? = w.vals[k]? := by
  induction l generalizing w with
  | nil => rfl
  | cons op l ih =>
    rw [List.foldl_cons, ih (step w op) (Nat.lt_of_lt_of_le hk (vals_length_step_le w op))]
    exact vals_step_stable w op hk

lemma run_append {α : Type} (l1 l2 : List (Op α)) :
    run (l1 ++ l2) = l2.foldl step (run l1) := by
  simp [run, List.foldl_append]

/-- The fate of one allocation k with strong handle g and weak snapshot a:
either it is still alive and its slot still carries the snapshot value, or it
has been dropped and its slot counter is strictly above the snapshot. -/
def Tracks {α : Type} (k : Nat) (g : Gr) (a : Nat) (w : World α) : Prop :=
  k < w.grs.length ∧
  ((w.handle k = some g ∧ genAt w.st.gens g.gen_idx = a) ∨
   (w.handle k = none ∧ a < genAt w.st.gens g.gen_idx))

lemma Tracks_step {α : Type} {w : World α} {k : Nat} {g : Gr} {a : Nat}
    (hw : WF w) (ht : Tracks k g a w) (op : Op α) : Tracks k g a (step w op) := by
  obtain ⟨hklen, hcase⟩ := ht
  cases op with
  | alloc v =>
    obtain ⟨i, rest, hpop, halloc⟩ := alloc_spec w.st v
    have hh : (step w (Op.alloc v)).handle k = w.handle k := by
      simp only [step, halloc, World.handle]
      exact optGetD_concat_left _ _ hklen
    have hlen2 : k < (step w (Op.alloc v)).grs.length := by
      simp only [step, halloc]
      simp only [List.length_append, List.length_cons, List.length_nil]
      omega
    have hgens : (step w (Op.alloc v)).st.gens = (popFree w.st).gens := by
      simp only [step, halloc]
    refine ⟨hlen2, ?_⟩
    rcases hcase with ⟨hlive, hgen⟩ | ⟨hdead, hgen⟩
    · left
      refine ⟨by rw [hh]; exact hlive, ?_⟩
      rw [hgens]
      have hidx := hw.liveIdx k g hlive
      simp only [genAt]
      rw [genRead_popFree hidx]
      exact hgen
    · right
      refine ⟨by rw [hh]; exact hdead, ?_⟩
      exact Nat.lt_of_lt_of_le hgen (genAt_step_le w (Op.alloc v) g.gen_idx)
  | drop k2 =>
    cases hk2 : w.handle k2 with
    | none =>
      have hs : step w (Op.drop k2) = w := by simp [step, hk2]
      rw [hs]
      exact ⟨hklen, hcase⟩
    | some g2 =>
      have hlen2 : k < (step w (Op.drop k2)).grs.length := by
        simp only [step, hk2]
        simpa using hklen
      refine ⟨hlen2, ?_⟩
      rcases hcase with ⟨hlive, hgen⟩ | ⟨hdead, hgen⟩
      · by_cases hkk : k2 = k
        · subst hkk
          have hg2 : g = g2 := by
            rw [hlive] at hk2
            exact Option.some_inj.mp hk2
          subst hg2
          right
          refine ⟨?_, ?_⟩
          · simp only [step, hk2]
            simp only [World.handle]
            rw [List.getElem?_set_self hklen]
            rfl
          · simp only [step, hk2, Gr.drop, genAt]
            rw [genRead_bump_self hw.blocks (hw.liveIdx k2 g hlive)]
            simp only [Option.getD_some]
            omega
        · left
          refine ⟨?_, ?_⟩
          · simp only [step, hk2]
            simp only [World.handle]
            rw [List.getElem?_set_ne hkk]
            exact hlive
          · simp only [step, hk2, Gr.drop, genAt]
            have hne : g.gen_idx ≠ g2.gen_idx :=
              hw.liveInj k k2 g g2 hlive hk2 (fun hc => hkk hc.symm)
            rw [genRead_bump_ne hne]
            exact hgen
      · have hkk : k2 ≠ k := by
          intro hc
          rw [hc, hdead] at hk2
          cases hk2
        right
        refine ⟨?_, ?_⟩
        · simp only [step, hk2]
          simp only [World.handle]
          rw [List.getElem?_set_ne hkk]
          exact hdead
        · simp only [step, hk2, Gr.drop, genAt]
          exact Nat.lt_of_lt_of_le hgen (genAt_le_bump _ _ _)

lemma Tracks_foldl {α : Type} {w : World α} {k : Nat} {g : Gr} {a : Nat}
    (hw : WF w) (ht : Tracks k g a w) (l : List (Op α)) :
    Tracks k g a (l.foldl step w) := by
  induction l generalizing w with
  | nil => exact ht
  | cons op l ih => exact ih (WF_step hw op) (Tracks_step hw ht op)

lemma Tracks_start {α : Type} {ops1 : List (Op α)} {k : Nat} {g : Gr}
    (h1 : (run ops1).handle k = some g) :
    Tracks k g (genAt (run ops1).st.gens g.gen_idx) (run ops1) :=
  ⟨handle_lt h1, Or.inl ⟨h1, rfl⟩⟩

lemma genRead_of_live {α : Type} {w : World α} (hw : WF w) {k : Nat} {g : Gr}
    (hk : w.handle k = some g) :
    genRead w.st.gens g.gen_idx = some (genAt w.st.gens g.gen_idx) := by
  obtain ⟨v, hv⟩ := genRead_eq_some hw.blocks (hw.liveIdx k g hk)
  rw [hv]
  simp [genAt, hv]

lemma get_of_live {α : Type} {w : World α} (hw : WF w) {k : Nat} {g : Gr} {v : α}
    (hk : w.handle k = some g) (hv : w.vals[k]? = some v) :
    Weak.get { ptr := g.ptr, gen := g.gen_idx, alloc_gen := genAt w.st.gens g.gen_idx } w.st
      = some v := by
  obtain ⟨u, hu, hh⟩ := hw.liveVal k g hk
  have huv : u = v := by
    rw [hu] at hv
    exact Option.some_inj.mp hv
  subst huv
  have hptr : g.ptr = k := hw.livePtr k g hk
  unfold Weak.get
  simp only
  rw [genRead_of_live hw hk]
  simp [hptr, hh]

/-- C1: after a strong handle is destroyed, every weak handle derived from it
beforehand returns none on every later get, whatever operations (including
allocations that may reuse the freed slot) happen in between. -/
theorem C1_weak_none_after_drop {α : Type} (ops1 ops2 : List (Op α)) (k : Nat) (g : Gr)
    (h1 : (run ops1).handle k = some g)
    (h2 : (run (ops1 ++ ops2)).handle k = none) :
    (Gr.weak g (run ops1).st).get (run (ops1 ++ ops2)).st = none := by
  have hw1 := WF_run ops1
  have ht : Tracks k g (genAt (run ops1).st.gens g.gen_idx) (run (ops1 ++ ops2)) := by
    rw [run_append]
    exact Tracks_foldl hw1 (Tracks_start h1) ops2
  rcases ht.2 with ⟨hlive, _⟩ | ⟨_, hgen⟩
  · rw [h2] at hlive
    cases hlive
  · simp only [Gr.weak, Weak.get]
    cases hgr : genRead (run (ops1 ++ ops2)).st.gens g.gen_idx with
    | none => simp
    | some u =>
      have hu : u = genAt (run (ops1 ++ ops2)).st.gens g.gen_idx := by
        simp [genAt, hgr]
      have hne : u ≠ genAt (run ops1).st.gens g.gen_idx := by
        rw [hu]
        omega
      simp [hne]

theorem C1_witness :
    (Gr.weak { ptr := 0, gen_idx := 511 } (run [Op.alloc (7 : Nat)]).st).get
      (run ([Op.alloc (7 : Nat)] ++ [Op.drop 0, Op.alloc 8])).st = none :=
  C1_weak_none_after_drop [Op.alloc 7] [Op.drop 0, Op.alloc 8] 0 { ptr := 0, gen_idx := 511 }
    (by decide) (by decide)

lemma get_none_of_gen_lt {α : Type} {s : GrArena α} {w : Weak}
    (h : w.alloc_gen < genAt s.gens w.gen) : w.get s = none := by
  unfold Weak.get
  cases hgr : genRead s.gens w.gen with
  | none => simp
  | some u =>
    have hu : u = genAt s.gens w.gen := by simp [genAt, hgr]
    have hne : u ≠ w.alloc_gen := by omega
    simp [hne]

/-- C2: while a strong handle is alive, every weak handle derived from it
returns some of the allocated value on every get, whatever other operations
happen in between. -/
theorem C2_live_weak_get_some {α : Type} (ops1 ops2 : List (Op α)) (k : Nat) (g : Gr) (v : α)
    (h1 : (run ops1).handle k = some g)
    (h2 : (run (ops1 ++ ops2)).handle k = some g)
    (hv : (run ops1).vals[k]? = some v) :
    (Gr.weak g (run ops1).st).get (run (ops1 ++ ops2)).st = some v := by
  have hw1 := WF_run ops1
  have hw2 := WF_run (ops1 ++ ops2)
  have ht : Tracks k g (genAt (run ops1).st.gens g.gen_idx) (run (ops1 ++ ops2)) := by
    rw [run_append]
    exact Tracks_foldl hw1 (Tracks_start h1) ops2
  rcases ht.2 with ⟨hlive, hgen⟩ | ⟨hdead, _⟩
  · have hveq : (run (ops1 ++ ops2)).vals[k]? = some v := by
      have hklen : k < (run ops1).vals.length := by
        rw [hw1.valsLen]
        exact handle_lt h1
      rw [run_append, vals_foldl_stable _ _ hklen]
      exact hv
    show Weak.get
      { ptr := g.ptr, gen := g.gen_idx, alloc_gen := genAt (run ops1).st.gens g.gen_idx }
      (run (ops1 ++ ops2)).st = some v
    rw [← hgen]
    exact get_of_live hw2 h2 hveq
  · rw [h2] at hdead
    cases hdead

theorem C2_witness :
    (Gr.weak { ptr := 0, gen_idx := 511 } (run [Op.alloc (7 : Nat)]).st).get
      (run ([Op.alloc (7 : Nat)] ++ [Op.alloc 8])).st = some 7 :=
  C2_live_weak_get_some [Op.alloc 7] [Op.alloc 8] 0 { ptr := 0, gen_idx := 511 } 7
    (by decide) (by decide) (by decide)

/-- C4: for a weak handle derived from a live strong handle, get returns a
usable reference exactly when the live generation counter read at call time
equals the snapshot captured at construction; the only other outcome is the
absent result none (get is a total function into Option, staleness is never
a fatal error). -/
theorem C4_get_iff_gen_match {α : Type} (ops1 ops2 : List (Op α)) (k : Nat) (g : Gr)
    (h1 : (run ops1).handle k = some g) :
    ((Gr.weak g (run ops1).st).get (run (ops1 ++ ops2)).st = none ∨
      ∃ v, (Gr.weak g (run ops1).st).get (run (ops1 ++ ops2)).st = some v) ∧
    ((∃ v, (Gr.weak g (run ops1).st).get (run (ops1 ++ ops2)).st = some v) ↔
      genAt (run (ops1 ++ ops2)).st.gens (Gr.weak g (run ops1).st).gen
        = (Gr.weak g (run ops1).st).alloc_gen) := by
  have hw1 := WF_run ops1
  have hw2 := WF_run (ops1 ++ ops2)
  have ht : Tracks k g (genAt (run ops1).st.gens g.gen_idx) (run (ops1 ++ ops2)) := by
    rw [run_append]
    exact Tracks_foldl hw1 (Tracks_start h1) ops2
  constructor
  · cases hres : (Gr.weak g (run ops1).st).get (run (ops1 ++ ops2)).st with
    | none => exact Or.inl rfl
    | some v => exact Or.inr ⟨v, rfl⟩
  constructor
  · rintro ⟨v, hv⟩
    rcases ht.2 with ⟨hlive, hgen⟩ | ⟨hdead, hgen⟩
    · simpa [Gr.weak] using hgen
    · rw [get_none_of_gen_lt (by simpa [Gr.weak] using hgen)] at hv
      cases hv
  · intro hgen2
    rcases ht.2 with ⟨hlive, hgen⟩ | ⟨hdead, hgen⟩
    · obtain ⟨v, hv, _⟩ := hw2.liveVal k g hlive
      refine ⟨v, ?_⟩
      show Weak.get
        { ptr := g.ptr, gen := g.gen_idx, alloc_gen := genAt (run ops1).st.gens g.gen_idx }
        (run (ops1 ++ ops2)).st = some v
      rw [← hgen]
      exact get_of_live hw2 hlive hv
    · exfalso
      simp only [Gr.weak] at hgen2
      omega

theorem C4_witness :
    (∃ v, (Gr.weak { ptr := 0, gen_idx := 511 } (run [Op.alloc (7 : Nat)]).st).get
        (run ([Op.alloc (7 : Nat)] ++ [])).st = some v) ↔
      genAt (run ([Op.alloc (7 : Nat)] ++ [])).st.gens
          (Gr.weak { ptr := 0, gen_idx := 511 } (run [Op.alloc (7 : Nat)]).st).gen
        = (Gr.weak { ptr := 0, gen_idx := 511 } (run [Op.alloc (7 : Nat)]).st).alloc_gen :=
  (C4_get_iff_gen_match [Op.alloc 7] [] 0 { ptr := 0, gen_idx := 511 } (by decide)).2

/-- C7: dereferencing through a weak handle is safe in the single-threaded
model: whenever the generation comparison performed at call time succeeds,
the heap cell the weak handle points to still holds a live, never freed box,
and get returns exactly that stored value. -/
theorem C7_no_use_after_free {α : Type} (ops1 ops2 : List (Op α)) (k : Nat) (g : Gr)
    (h1 : (run ops1).handle k = some g)
    (hmatch : genAt (run (ops1 ++ ops2)).st.gens (Gr.weak g (run ops1).st).gen
      = (Gr.weak g (run ops1).st).alloc_gen) :
    ∃ v, (run (ops1 ++ ops2)).st.heap[(Gr.weak g (run ops1).st).ptr]? = some (some v) ∧
      (Gr.weak g (run ops1).st).get (run (ops1 ++ ops2)).st = some v := by
  have hw1 := WF_run ops1
  have hw2 := WF_run (ops1 ++ ops2)
  have ht : Tracks k g (genAt (run ops1).st.gens g.gen_idx) (run (ops1 ++ ops2)) := by
    rw [run_append]
    exact Tracks_foldl hw1 (Tracks_start h1) ops2
  rcases ht.2 with ⟨hlive, hgen⟩ | ⟨hdead, hgen⟩
  · obtain ⟨v, hv, hh⟩ := hw2.liveVal k g hlive
    refine ⟨v, ?_, ?_⟩
    · have hptr : g.ptr = k := hw2.livePtr k g hlive
      simpa [Gr.weak, hptr] using hh
    · show Weak.get
        { ptr := g.ptr, gen := g.gen_idx, alloc_gen := genAt (run ops1).st.gens g.gen_idx }
        (run (ops1 ++ ops2)).st = some v
      rw [← hgen]
      exact get_of_live hw2 hlive hv
  · exfalso
    simp only [Gr.weak] at hmatch
    omega

/-- C8: deriving a weak handle from a live strong handle only reads the
current generation counter — its pure type and the record equation below
record that it neither mutates the arena state nor the stored value, and a
repeated call returns the same handle — and the weak handle so obtained
stays valid (get returns a value) for as long as the strong handle is
alive. -/
theorem C8_weak_derivation_pure_and_valid {α : Type} (ops1 ops2 : List (Op α))
    (k : Nat) (g : Gr)
    (h1 : (run ops1).handle k = some g)
    (h2 : (run (ops1 ++ ops2)).handle k = some g) :
    Gr.weak g (run ops1).st
      = { ptr := g.ptr, gen := g.gen_idx,
          alloc_gen := genAt (run ops1).st.gens g.gen_idx } ∧
    ((Gr.weak g (run ops1).st).get (run (ops1 ++ ops2)).st).isSome = true := by
  refine ⟨rfl, ?_⟩
  have hw1 := WF_run ops1
  have hw2 := WF_run (ops1 ++ ops2)
  have ht : Tracks k g (genAt (run ops1).st.gens g.gen_idx) (run (ops1 ++ ops2)) := by
    rw [run_append]
    exact Tracks_foldl hw1 (Tracks_start h1) ops2
  rcases ht.2 with ⟨hlive, hgen⟩ | ⟨hdead, _⟩
  · obtain ⟨v, hv, _⟩ := hw2.liveVal k g hlive
    have hget := get_of_live hw2 hlive hv
    show (Weak.get
      { ptr := g.ptr, gen := g.gen_idx, alloc_gen := genAt (run ops1).st.gens g.gen_idx }
      (run (ops1 ++ ops2)).st).isSome = true
    rw [← hgen, hget]
    rfl
  · rw [h2] at hdead
    cases hdead

theorem C8_witness :
    Gr.weak { ptr := 0, gen_idx := 511 } (run [Op.alloc (7 : Nat)]).st
      = { ptr := 0, gen := 511,
          alloc_gen := genAt (run [Op.alloc (7 : Nat)]).st.gens 511 } ∧
    ((Gr.weak { ptr := 0, gen_idx := 511 } (run [Op.alloc (7 : Nat)]).st).get
      (run ([Op.alloc (7 : Nat)] ++ [Op.alloc 8])).st).isSome = true :=
  C8_weak_derivation_pure_and_valid [Op.alloc 7] [Op.alloc 8] 0 { ptr := 0, gen_idx := 511 }
    (by decide) (by decide)

/-- C9: cloning a weak handle duplicates the generation snapshot and the two
stable references, so the clone coincides with the original as a value, is
independent of it, and at every arena state its get re-validates and has
exactly the same outcome as the original's. -/
theorem C9_clone_same_validity {α : Type} (w : Weak) (s : GrArena α) :
    Weak.clone w = { ptr := w.ptr, gen := w.gen, alloc_gen := w.alloc_gen } ∧
    Weak.clone w = w ∧
    (Weak.clone w).get s = w.get s := by
  refine ⟨rfl, ?_, ?_⟩
  · cases w
    rfl
  · cases w
    rfl

theorem C9_witness :
    (Weak.clone { ptr := 0, gen := 511, alloc_gen := 1 }).get (run [Op.alloc (7 : Nat)]).st
      = ({ ptr := 0, gen := 511, alloc_gen := 1 } : Weak).get (run [Op.alloc (7 : Nat)]).st :=
  (C9_clone_same_validity { ptr := 0, gen := 511, alloc_gen := 1 }
    (run [Op.alloc (7 : Nat)]).st).2.2

lemma allocs_preserve {α : Type} (l : List (Op α)) :
    ∀ w : World α, (∀ op ∈ l, ∃ v, op = Op.alloc v) →
      (∀ i, i < numSlots w.st.gens →
        genRead (l.foldl step w).st.gens i = genRead w.st.gens i) ∧
      (∀ p, p < w.st.heap.length →
        (l.foldl step w).st.heap[p]? = w.st.heap[p]?) := by
  induction l with
  | nil => exact fun w _ => ⟨fun i _ => rfl, fun p _ => rfl⟩
  | cons op l ih =>
    intro w hl
    obtain ⟨v, rfl⟩ := hl op (List.mem_cons_self _ _)
    obtain ⟨j, rest, hpop, halloc⟩ := alloc_spec w.st v
    have hstep_gens : (step w (Op.alloc v)).st.gens = (popFree w.st).gens := by
      simp only [step, halloc]
    have hstep_heap : (step w (Op.alloc v)).st.heap = w.st.heap ++ [some v] := by
      simp only [step, halloc, popFree_heap]
    have hl2 : ∀ op2 ∈ l, ∃ v2, op2 = Op.alloc v2 :=
      fun op2 hop => hl op2 (List.mem_cons_of_mem _ hop)
    obtain ⟨ihg, ihh⟩ := ih (step w (Op.alloc v)) hl2
    refine ⟨?_, ?_⟩
    · intro i hi
      rw [List.foldl_cons]
      have hi2 : i < numSlots (step w (Op.alloc v)).st.gens :=
        Nat.lt_of_lt_of_le hi (numSlots_step_le w _)
      rw [ihg i hi2, hstep_gens, genRead_popFree hi]
    · intro p hp
      rw [List.foldl_cons]
      have hp2 : p < (step w (Op.alloc v)).st.heap.length := by
        rw [hstep_heap]
        simp only [List.length_append, List.length_cons, List.length_nil]
        omega
      rw [ihh p hp2, hstep_heap, List.getElem?_append_left hp]

/-- C10: allocate never modifies an existing generation counter (counters
change only when a strong handle is destroyed), so the get outcome of any
previously derived weak handle is unchanged across any number of intervening
allocations while its originating strong handle's destruction status is
unchanged. -/
theorem C10_alloc_frame {α : Type} (ops0 mid ops2 : List (Op α)) (k : Nat) (g : Gr)
    (h1 : (run ops0).handle k = some g)
    (h2 : ∀ op ∈ ops2, ∃ v, op = Op.alloc v) :
    (∀ (s : GrArena α) (v : α) (i : Nat), i < numSlots s.gens →
      genAt (s.alloc v).1.gens i = genAt s.gens i) ∧
    (Gr.weak g (run ops0).st).get (run ((ops0 ++ mid) ++ ops2)).st
      = (Gr.weak g (run ops0).st).get (run (ops0 ++ mid)).st := by
  have hw0 := WF_run ops0
  have hwm := WF_run (ops0 ++ mid)
  refine ⟨?_, ?_⟩
  · intro s v i hi
    obtain ⟨j, rest, hpop, halloc⟩ := alloc_spec s v
    simp only [halloc, genAt]
    rw [genRead_popFree hi]
  · obtain ⟨hg, hh⟩ := allocs_preserve ops2 (run (ops0 ++ mid)) h2
    have hgidx : g.gen_idx < numSlots (run (ops0 ++ mid)).st.gens := by
      have hx := hw0.liveIdx k g h1
      have hy : numSlots (run ops0).st.gens ≤ numSlots (run (ops0 ++ mid)).st.gens := by
        rw [run_append]
        exact numSlots_foldl_le _ mid
      omega
    have hptr : g.ptr < (run (ops0 ++ mid)).st.heap.length := by
      rw [hwm.heapLen, hw0.livePtr k g h1]
      have hx := handle_lt h1
      have hy : (run ops0).grs.length ≤ (run (ops0 ++ mid)).grs.length := by
        rw [run_append]
        exact grs_length_foldl_le _ mid
      omega
    rw [run_append ((ops0 ++ mid)) ops2]
    unfold Weak.get
    simp only [Gr.weak]
    rw [hg g.gen_idx hgidx, hh g.ptr hptr]

theorem C10_witness :
    (Gr.weak { ptr := 0, gen_idx := 511 } (run [Op.alloc (5 : Nat)]).st).get
        (run (([Op.alloc (5 : Nat)] ++ []) ++ [Op.alloc 6])).st
      = (Gr.weak { ptr := 0, gen_idx := 511 } (run [Op.alloc (5 : Nat)]).st).get
        (run ([Op.alloc (5 : Nat)] ++ [])).st :=
  (C10_alloc_frame [Op.alloc 5] [] [Op.alloc 6] 0 { ptr := 0, gen_idx := 511 }
    (by decide) (fun op hop => ⟨6, List.mem_singleton.mp hop⟩)).2

/-- C3: a slot's generation counter is created with value 1 together with its
block, is incremented by exactly one when the slot's occupant strong handle
is destroyed, and never decreases and never resets along any reachable
sequence of operations. -/
theorem C3_generation_counters {α : Type} (ops : List (Op α)) (op : Op α) :
    (∀ i, numSlots (run ops).st.gens ≤ i → i < numSlots (run (ops ++ [op])).st.gens →
      genAt (run (ops ++ [op])).st.gens i = 1) ∧
    (∀ k g, (run ops).handle k = some g → op = Op.drop k →
      genAt (run (ops ++ [op])).st.gens g.gen_idx
        = genAt (run ops).st.gens g.gen_idx + 1) ∧
    (∀ (ops2 : List (Op α)) (i : Nat),
      genAt (run ops).st.gens i ≤ genAt (run (ops ++ ops2)).st.gens i) := by
  have hw := WF_run ops
  have hrun1 : run (ops ++ [op]) = step (run ops) op := by
    rw [run_append]
    rfl
  refine ⟨?_, ?_, ?_⟩
  · intro i hge hlt
    rw [hrun1] at hlt ⊢
    cases op with
    | alloc v =>
      obtain ⟨j, rest, hpop, halloc⟩ := alloc_spec (run ops).st v
      simp only [step, halloc] at hlt ⊢
      rcases popFree_cases (run ops).st with ⟨h1, h2⟩ | ⟨h1, h2⟩
      · rw [h2, grow_gens] at hlt ⊢
        simp only [genAt]
        rw [genRead_append_new hge hlt]
        rfl
      · rw [h2] at hlt
        exact absurd hlt (by omega)
    | drop k =>
      cases hk : (run ops).handle k with
      | none =>
        simp only [step, hk] at hlt ⊢
        exact absurd hlt (by omega)
      | some g =>
        simp only [step, hk, Gr.drop] at hlt ⊢
        rw [numSlots_bump] at hlt
        exact absurd hlt (by omega)
  · intro k g hk hop
    subst hop
    rw [hrun1]
    simp only [step, hk, Gr.drop, genAt]
    rw [genRead_bump_self hw.blocks (hw.liveIdx k g hk)]
    rfl
  · intro ops2 i
    rw [run_append]
    exact genAt_foldl_le _ ops2 i

theorem C3_witness :
    genAt (run ([Op.alloc (7 : Nat)] ++ [Op.drop 0])).st.gens 511
      = genAt (run [Op.alloc (7 : Nat)]).st.gens 511 + 1 :=
  (C3_generation_counters [Op.alloc 7] (Op.drop 0)).2.1 0 { ptr := 0, gen_idx := 511 }
    (by decide) rfl

/-- C5: in every reachable arena state, an existing slot index is on the free
list exactly when no live strong handle currently occupies that slot; the
statement ranges over all reachable states, so it is preserved by every
allocate and every destroy. -/
theorem C5_free_list_iff_unoccupied {α : Type} (ops : List (Op α)) (i : Nat)
    (hi : i < numSlots (run ops).st.gens) :
    i ∈ (run ops).st.unused ↔
      ∀ k, k < (run ops).grs.length → (run ops).slotOf k ≠ some i := by
  have hw := WF_run ops
  constructor
  · intro hmem k hk hslot
    simp only [World.slotOf] at hslot
    cases hg : (run ops).handle k with
    | none =>
      rw [hg] at hslot
      cases hslot
    | some g =>
      rw [hg] at hslot
      simp only [Option.map_some'] at hslot
      have hgi : g.gen_idx = i := Option.some_inj.mp hslot
      apply hw.liveFree k g hg
      rw [hgi]
      exact hmem
  · intro hall
    by_contra hmem
    obtain ⟨k, g, hk, hgi⟩ := hw.freeLive i hi hmem
    apply hall k (handle_lt hk)
    simp [World.slotOf, hk, hgi]

theorem C5_witness : (0 : Nat) ∈ (run [Op.alloc (0 : Nat)]).st.unused :=
  (C5_free_list_iff_unoccupied [Op.alloc 0] 0 (by decide)).mpr (by decide)

/-- C6: when allocate finds the free list empty, it appends exactly one new
block of MAX_ALLOCS = 512 generation counters all initialized to the alive
sentinel 1, pushes every global index of the new block onto the free list,
and the retried pop succeeds, so allocate returns a strong handle bound to
one of the new slots. -/
theorem C6_grow_on_empty {α : Type} (s : GrArena α) (v : α) (h : s.unused = []) :
    MAX_ALLOCS = 512 ∧
    (s.alloc v).1.gens = s.gens ++ [List.replicate MAX_ALLOCS 1] ∧
    (∀ j, j ∈ (grow s).unused ↔
      numSlots s.gens ≤ j ∧ j < numSlots s.gens + MAX_ALLOCS) ∧
    (∃ i rest, (grow s).unused = i :: rest ∧
      (s.alloc v).2 = { ptr := s.heap.length, gen_idx := i } ∧
      (s.alloc v).1.unused = rest) ∧
    numSlots s.gens ≤ (s.alloc v).2.gen_idx ∧
    (s.alloc v).2.gen_idx < numSlots (s.alloc v).1.gens := by
  have hpf : popFree s = grow s := by
    rcases popFree_cases s with ⟨h1, h2⟩ | ⟨h1, h2⟩
    · exact h2
    · exact absurd h h1
  obtain ⟨i, rest, hpop, halloc⟩ := alloc_spec s v
  rw [hpf] at hpop halloc
  have hmem : ∀ j, j ∈ (grow s).unused ↔
      numSlots s.gens ≤ j ∧ j < numSlots s.gens + MAX_ALLOCS := by
    intro j
    rw [grow_unused_mem]
    constructor
    · rintro (hj | hj)
      · exact hj
      · rw [h] at hj
        cases hj
    · exact Or.inl
  have himem : i ∈ (grow s).unused := by
    rw [hpop]
    exact List.mem_cons_self _ _
  have hib := (hmem i).mp himem
  refine ⟨rfl, ?_, hmem, ⟨i, rest, hpop, ?_, ?_⟩, ?_, ?_⟩
  · rw [halloc]
    exact grow_gens s
  · rw [halloc]
    rfl
  · rw [halloc]
  · rw [halloc]
    exact hib.1
  · rw [halloc]
    show i < numSlots (grow s).gens
    rw [grow_gens, numSlots_append_one]
    omega

theorem C6_witness :
    (({ gens := [], unused := [], heap := [] } : GrArena Nat).alloc 0).1.gens
      = [] ++ [List.replicate MAX_ALLOCS 1] :=
  (C6_grow_on_empty { gens := [], unused := [], heap := [] } 0 rfl).2.1

theorem C7_witness :
    ∃ v, (run ([Op.alloc (7 : Nat)] ++ [])).st.heap[(Gr.weak { ptr := 0, gen_idx := 511 }
        (run [Op.alloc (7 : Nat)]).st).ptr]? = some (some v) ∧
      (Gr.weak { ptr := 0, gen_idx := 511 } (run [Op.alloc (7 : Nat)]).st).get
        (run ([Op.alloc (7 : Nat)] ++ [])).st = some v :=
  C7_no_use_after_free [Op.alloc 7] [] 0 { ptr := 0, gen_idx := 511 }
    (by decide) (by decide)

example :
    (Gr.weak { ptr := 0, gen_idx := 511 } (run [Op.alloc (7 : Nat)]).st).get
      (run [Op.alloc (7 : Nat)]).st = some 7 := by
  decide

example :
    (Gr.weak { ptr := 0, gen_idx := 511 } (run [Op.alloc (7 : Nat)]).st).get
      (run [Op.alloc (7 : Nat), Op.drop 0]).st = none := by
  decide
